/-
Verification of the fuzzy-finder matching core (main.py) against its
specification.

The program profiles a string into a per-character map from each character
to a pair of its occurrence count and the ordered list of its zero-based
occurrence indices (class `Fuzzable`), and decides containment of a query
profile in a candidate profile (`compare_dicts`), producing a "shared"
profile of matched positions.  The embedding below models Python dicts as
association lists (key order = insertion order, as in Python), mutation as
explicit state passing, and the KeyError raised on characters outside the
fixed alphabet as `Option`.
-/
import Mathlib

set_option autoImplicit false

namespace FuzzyFinder

/-- An entry of the per-character map: Python's two-element list
`[count, positions]`. -/
abbrev Entry := Nat × List Nat

/-- The codes of Python's `string.printable`, in its order: digits,
lowercase letters, uppercase letters, punctuation, whitespace. -/
def printableCodes : List Nat :=
  List.range' 48 10 ++ List.range' 97 26 ++ List.range' 65 26 ++
    List.range' 33 15 ++ List.range' 58 7 ++ List.range' 91 6 ++
    List.range' 123 4 ++ [32, 9, 10, 13, 11, 12]

/-- The fixed alphabet `string.printable` used to pre-seed `letter_counts`
(main.py line 33). -/
def printable : List Char := printableCodes.map Char.ofNat

/-- Dict lookup on the association-list model of a Python dict. -/
def lookupE (m : List (Char × Entry)) (c : Char) : Option Entry :=
  match m with
  | [] => none
  | p :: rest => if p.1 = c then some p.2 else lookupE rest c

/-- Python's `key in dict` test. -/
def memKeys (m : List (Char × Entry)) (c : Char) : Bool :=
  (lookupE m c).isSome

/-- In-place update of the (unique) entry at key `k`: Python's mutation of
the two-element list stored in the dict. -/
def updateEntry (m : List (Char × Entry)) (k : Char) (f : Entry → Entry) :
    List (Char × Entry) :=
  m.map (fun p => if p.1 = k then (p.1, f p.2) else p)

/-- Python's seeding `letter_counts = {x: [0, []] for x in printable}`
(main.py line 33). -/
def initCounts : List (Char × Entry) :=
  printable.map (fun c => (c, (0, [])))

/-- One iteration of the profiling loop (main.py lines 34-36):
`letter_counts[char][0] += 1; letter_counts[char][1].append(idx)`.
A missing key raises `KeyError`, modelled by `none`. -/
def countStep (m : List (Char × Entry)) (ic : Nat × Char) :
    Option (List (Char × Entry)) :=
  match lookupE m ic.2 with
  | none => none
  | some _ => some (updateEntry m ic.2 (fun e => (e.1 + 1, e.2 ++ [ic.1])))

/-- The full profiling loop of `Fuzzable.__init__` over the enumerated
characters of the input string. -/
def letterCounts (path : List Char) : Option (List (Char × Entry)) :=
  path.enum.foldlM countStep initCounts

/-- The filter `self.non_zero = {x: y for x, y in letter_counts.items() if y[0] > 0}`
(main.py line 38).  `none` models the `KeyError` raised during the loop. -/
def nonZero (path : List Char) : Option (List (Char × Entry)) :=
  (letterCounts path).map (fun m => m.filter (fun p => 0 < p.2.1))

/-- The loop of `compare_dicts` (main.py lines 54-59) over the keys of
`common_dict`, carrying the candidate's entry map as explicit state: the
values of `common_dict` alias the value lists of `fuzz1.non_zero`, so the
truncation `common_dict[key][1] = common_dict[key][1][:query_count]`
rewrites the candidate's own entries.  The `getD` defaults are never hit:
every visited key is present in both maps at every call site. -/
def compareLoop (f2 : List (Char × Entry)) :
    List Char → List (Char × Entry) → Bool × List (Char × Entry)
  | [], state => (true, state)
  | key :: ks, state =>
    let file_count := ((lookupE state key).getD (0, [])).1
    let query_count := ((lookupE f2 key).getD (0, [])).1
    if file_count ≥ query_count then
      compareLoop f2 ks
        (updateEntry state key (fun e => (e.1, e.2.take query_count)))
    else (false, state)

/-- The function `compare_dicts(fuzz1, fuzz2)` (main.py lines 41-62), with `f1` the
candidate's `non_zero` map and `f2` the query's.  Returns the boolean
result, the candidate's `non_zero` map after the call (the truncations of
line 59 mutate it through aliasing, even on an early `False` return), and
the value assigned to `fuzz1.shared` (line 61), which is only assigned on
success. -/
def compare_dicts (f1 f2 : List (Char × Entry)) :
    Bool × List (Char × Entry) × Option (List (Char × Entry)) :=
  let commonKeys := (f1.map Prod.fst).filter (fun c => memKeys f2 c)
  if commonKeys.length ≠ f2.length then (false, f1, none)
  else
    let r := compareLoop f2 commonKeys f1
    if r.1 then (r.1, r.2, some (r.2.filter (fun p => memKeys f2 p.1)))
    else (r.1, r.2, none)

/-- A `Fuzzable` object: its `non_zero` map together with its `shared`
field, which starts out unassigned (main.py line 28: "Uinitialized and
unused for query"). -/
structure FuzzObj where
  non_zero : List (Char × Entry)
  shared : Option (List (Char × Entry))

/-- A call `compare_dicts(fuzz1, fuzz2)` at the level of the two objects,
as performed at every call site (main.py line 110), where the two profiles
are freshly constructed and hence share no value lists.  The source writes
only to entries of `common_dict` — aliases of `fuzz1.non_zero`'s value
lists (line 59) — and to `fuzz1.shared` (line 61); `fuzz2` is only read.
Returns the boolean result and the post-call states of both objects. -/
def compareCall (fuzz1 fuzz2 : FuzzObj) : Bool × FuzzObj × FuzzObj :=
  let r := compare_dicts fuzz1.non_zero fuzz2.non_zero
  (r.1,
   { non_zero := r.2.1,
     shared := match r.2.2 with
               | some sh => some sh
               | none => fuzz1.shared },
   fuzz2)

/-- The scan loop of `main` (main.py lines 108-111): each directory entry
is profiled and compared against the query profile; matching entries are
printed in enumeration order.  Profiling a candidate with a character
outside the alphabet raises an uncaught `KeyError`, which kills the whole
program: the returned Bool is `false` when that happened, and the list
holds the candidates reported as matches before the crash. -/
def scanLoop (q : List (Char × Entry)) :
    List (List Char) → List (List Char) × Bool
  | [] => ([], true)
  | f :: fs =>
    match nonZero f with
    | none => ([], false)
    | some m =>
      let r := compare_dicts m q
      let rest := scanLoop q fs
      if r.1 then (f :: rest.1, rest.2) else rest

/-- The matching phase of `main` (main.py lines 101-111): an empty query
bypasses the matcher and lists every entry verbatim (lines 101-104);
otherwise the query is profiled — an out-of-alphabet character in it
raises an uncaught `KeyError` (line 106) — and the scan loop runs. -/
def mainScan (files : List (List Char)) (query : List Char) :
    List (List Char) × Bool :=
  if query.length = 0 then (files, true)
  else
    match nonZero query with
    | none => ([], false)
    | some q => scanLoop q files

/-- Status of the path argument as seen by `main`'s checks
(main.py lines 92-98). -/
inductive PathStatus
  | missing
  | notDir
  | okDir
deriving DecidableEq

/-- Observable outcome of a run of `main`: the candidate paths reported as
matches on stdout, and whether the run terminated without an uncaught
exception. -/
structure RunResult where
  printed : List (List Char)
  ok : Bool
deriving DecidableEq

/-- A run of `main` (main.py lines 86-111).  The two path checks only
print warnings to stderr and do not return (lines 92-96); for a missing
or non-directory path the `os.scandir` call itself (line 98) raises
`FileNotFoundError` / `NotADirectoryError` uncaught, so the program dies
before any entry is enumerated or matched. -/
def mainRun (st : PathStatus) (files : List (List Char))
    (query : List Char) : RunResult :=
  match st with
  | .okDir =>
    let r := mainScan files query
    { printed := r.1, ok := r.2 }
  | _ => { printed := [], ok := false }

/-! ### Specification-side description of a profile

`profileOf` is the closed form of the map `Fuzzable.__init__` computes;
the lemmas below prove `nonZero` equal to it. -/

/-- The enumerated occurrences of `c` in `s`: the (index, character)
pairs of `s.enum` whose character is `c`. -/
def occPairs (s : List Char) (c : Char) : List (Nat × Char) :=
  s.enum.filter (fun p => p.2 = c)

/-- Number of occurrences of `c` in `s`. -/
def occCount (s : List Char) (c : Char) : Nat :=
  (occPairs s c).length

/-- The zero-based indices of the occurrences of `c` in `s`, in order. -/
def occList (s : List Char) (c : Char) : List Nat :=
  (occPairs s c).map Prod.fst

/-- Closed form of the `non_zero` map of `Fuzzable(s)`: one entry per
alphabet character occurring in `s`, in alphabet order, holding its
occurrence count and its ordered occurrence indices. -/
def profileOf (s : List Char) : List (Char × Entry) :=
  (printable.filter (fun c => 0 < occCount s c)).map
    (fun c => (c, (occCount s c, occList s c)))

/-- The profile invariant stated by the spec: every retained character's
position list has exactly `count` elements and is strictly increasing. -/
def ProfileInv (m : List (Char × Entry)) : Prop :=
  ∀ p ∈ m, p.2.2.length = p.2.1 ∧ List.Pairwise (· < ·) p.2.2

instance (m : List (Char × Entry)) : Decidable (ProfileInv m) := by
  unfold ProfileInv; infer_instance

/-- The weakened invariant that survives the restriction step: positions
strictly increasing, at most `count` of them. -/
def WeakInv (m : List (Char × Entry)) : Prop :=
  ∀ p ∈ m, p.2.2.length ≤ p.2.1 ∧ List.Pairwise (· < ·) p.2.2

instance (m : List (Char × Entry)) : Decidable (WeakInv m) := by
  unfold WeakInv; infer_instance

/-- The count field read by `compare_dicts`: `dict[key][0]`. -/
def countOf (m : List (Char × Entry)) (c : Char) : Nat :=
  ((lookupE m c).getD (0, [])).1

/-! ### Basic lemmas on the dict model -/

theorem updateEntry_cons (p : Char × Entry) (rest : List (Char × Entry))
    (k : Char) (f : Entry → Entry) :
    updateEntry (p :: rest) k f =
      (if p.1 = k then (p.1, f p.2) else p) :: updateEntry rest k f := rfl

theorem lookupE_cons (p : Char × Entry) (rest : List (Char × Entry))
    (c : Char) :
    lookupE (p :: rest) c = if p.1 = c then some p.2 else lookupE rest c :=
  rfl

theorem lookupE_updateEntry (m : List (Char × Entry)) (k : Char)
    (f : Entry → Entry) (c : Char) :
    lookupE (updateEntry m k f) c =
      if c = k then (lookupE m c).map f else lookupE m c := by
  induction m with
  | nil => simp [lookupE, updateEntry]
  | cons p rest ih =>
    rw [updateEntry_cons]
    by_cases hpk : p.1 = k
    · by_cases hpc : p.1 = c
      · subst hpc
        simp [lookupE_cons, hpk]
      · subst hpk
        have hck : ¬ c = p.1 := fun h => hpc h.symm
        simp [lookupE_cons, hpc, hck, ih]
    · by_cases hpc : p.1 = c
      · subst hpc
        have hck : ¬ p.1 = k := hpk
        simp [lookupE_cons, hck, ih]
      · simp [lookupE_cons, hpk, hpc, ih]

theorem keys_updateEntry (m : List (Char × Entry)) (k : Char)
    (f : Entry → Entry) :
    (updateEntry m k f).map Prod.fst = m.map Prod.fst := by
  unfold updateEntry
  rw [List.map_map]
  apply List.map_congr_left
  intro p _
  by_cases h : p.1 = k <;> simp [h]

theorem memKeys_updateEntry (m : List (Char × Entry)) (k : Char)
    (f : Entry → Entry) (c : Char) :
    memKeys (updateEntry m k f) c = memKeys m c := by
  unfold memKeys
  rw [lookupE_updateEntry]
  by_cases h : c = k <;> simp [h]

theorem lookupE_map_self (l : List Char) (g : Char → Entry) (c : Char) :
    lookupE (l.map (fun x => (x, g x))) c =
      if c ∈ l then some (g c) else none := by
  induction l with
  | nil => simp [lookupE]
  | cons a rest ih =>
    simp only [List.map_cons, lookupE]
    by_cases h : a = c
    · subst h; simp
    · simp [h, ih, Ne.symm h]

theorem lookupE_isSome_iff (m : List (Char × Entry)) (c : Char) :
    (lookupE m c).isSome = true ↔ c ∈ m.map Prod.fst := by
  induction m with
  | nil => simp [lookupE]
  | cons p rest ih =>
    by_cases h : p.1 = c
    · subst h
      simp [lookupE_cons]
    · have h' : ¬ c = p.1 := fun hh => h hh.symm
      simp [lookupE_cons, h, h', ih]

theorem lookupE_eq_none (m : List (Char × Entry)) (c : Char)
    (h : c ∉ m.map Prod.fst) : lookupE m c = none := by
  rw [← Option.not_isSome_iff_eq_none]
  simp only [lookupE_isSome_iff]
  exact h

theorem lookupE_filter (m : List (Char × Entry)) (pred : Char × Entry → Bool)
    (c : Char) (hnd : (m.map Prod.fst).Nodup) :
    lookupE (m.filter pred) c =
      match lookupE m c with
      | some e => if pred (c, e) then some e else none
      | none => none := by
  induction m with
  | nil => simp [lookupE]
  | cons p rest ih =>
    simp only [List.map_cons, List.nodup_cons] at hnd
    by_cases hpc : p.1 = c
    · by_cases hp : pred p
      · rw [List.filter_cons_of_pos hp]
        subst hpc
        simp [lookupE, hp]
      · rw [List.filter_cons_of_neg hp]
        have hnone : lookupE (rest.filter pred) c = none := by
          apply lookupE_eq_none
          intro hmem
          apply hnd.1
          rw [hpc]
          have hsub : ((rest.filter pred).map Prod.fst).Sublist
              (rest.map Prod.fst) := (List.filter_sublist rest).map Prod.fst
          exact hsub.mem hmem
        subst hpc
        simp [lookupE, hnone, hp]
    · have htail := ih hnd.2
      by_cases hp : pred p
      · rw [List.filter_cons_of_pos hp]
        simp [lookupE, hpc, htail]
      · rw [List.filter_cons_of_neg hp]
        simp [lookupE, hpc, htail]

/-! ### Characterisation of the profiling fold -/

theorem memKeys_initCounts (c : Char) :
    memKeys initCounts c = true ↔ c ∈ printable := by
  unfold memKeys initCounts
  rw [lookupE_map_self]
  by_cases h : c ∈ printable <;> simp [h]

theorem foldlM_countStep_some (ps : List (Nat × Char)) :
    ∀ m : List (Char × Entry), (∀ p ∈ ps, memKeys m p.2 = true) →
    ps.foldlM countStep m = some (m.map (fun q =>
      (q.1, (q.2.1 + (ps.filter (fun p => p.2 = q.1)).length,
             q.2.2 ++ (ps.filter (fun p => p.2 = q.1)).map Prod.fst)))) := by
  induction ps with
  | nil =>
    intro m _
    simp [List.foldlM_nil]
  | cons a ps ih =>
    intro m hkeys
    have ha : memKeys m a.2 = true := hkeys a (List.mem_cons_self a ps)
    obtain ⟨e, he⟩ := Option.isSome_iff_exists.mp ha
    rw [List.foldlM_cons]
    have hstep : countStep m a =
        some (updateEntry m a.2 (fun e => (e.1 + 1, e.2 ++ [a.1]))) := by
      unfold countStep
      rw [he]
    rw [hstep]
    show List.foldlM countStep
      (updateEntry m a.2 (fun e => (e.1 + 1, e.2 ++ [a.1]))) ps = _
    rw [ih _ (by
      intro p hp
      rw [memKeys_updateEntry]
      exact hkeys p (List.mem_cons_of_mem a hp))]
    unfold updateEntry
    rw [List.map_map]
    refine congrArg some (List.map_congr_left ?_)
    intro q _
    by_cases hq : q.1 = a.2
    · have ha2 : a.2 = q.1 := hq.symm
      rw [Function.comp_apply, if_pos hq]
      simp [List.filter_cons, ha2]
      omega
    · have ha2 : ¬ a.2 = q.1 := fun h => hq h.symm
      rw [Function.comp_apply, if_neg hq]
      simp [List.filter_cons, ha2]

theorem foldlM_countStep_none (ps : List (Nat × Char)) :
    ∀ m : List (Char × Entry), (¬ ∀ p ∈ ps, memKeys m p.2 = true) →
    ps.foldlM countStep m = none := by
  induction ps with
  | nil =>
    intro m h
    exact absurd (by intro p hp; cases hp) h
  | cons a ps ih =>
    intro m h
    rw [List.foldlM_cons]
    by_cases ha : memKeys m a.2 = true
    · obtain ⟨e, he⟩ := Option.isSome_iff_exists.mp ha
      have hstep : countStep m a =
          some (updateEntry m a.2 (fun e => (e.1 + 1, e.2 ++ [a.1]))) := by
        unfold countStep
        rw [he]
      rw [hstep]
      show List.foldlM countStep
        (updateEntry m a.2 (fun e => (e.1 + 1, e.2 ++ [a.1]))) ps = none
      apply ih
      intro hall
      apply h
      intro p hp
      rcases List.mem_cons.mp hp with hpa | hps
      · rw [hpa]; exact ha
      · have := hall p hps
        rwa [memKeys_updateEntry] at this
    · have hstep : countStep m a = none := by
        unfold countStep
        have : lookupE m a.2 = none := by
          rcases hx : lookupE m a.2 with _ | e
          · rfl
          · exact absurd (by unfold memKeys; rw [hx]; rfl) ha
        rw [this]
      rw [hstep]
      rfl

theorem letterCounts_eq (s : List Char) (hs : ∀ c ∈ s, c ∈ printable) :
    letterCounts s =
      some (printable.map (fun c => (c, (occCount s c, occList s c)))) := by
  unfold letterCounts
  rw [foldlM_countStep_some s.enum initCounts (by
    intro p hp
    rw [memKeys_initCounts]
    apply hs
    have : p.2 ∈ s.enum.map Prod.snd := List.mem_map_of_mem Prod.snd hp
    rwa [List.enum_map_snd] at this)]
  unfold initCounts
  rw [List.map_map]
  refine congrArg some (List.map_congr_left ?_)
  intro c _
  simp [Function.comp, occCount, occList, occPairs]

theorem filter_map_comm (l : List Char) (g : Char → Char × Entry)
    (pred : Char × Entry → Bool) :
    (l.map g).filter pred = (l.filter (fun c => pred (g c))).map g := by
  induction l with
  | nil => rfl
  | cons a rest ih =>
    by_cases h : pred (g a) = true
    · simp only [List.map_cons, List.filter_cons, h, if_true, ih]
    · simp only [List.map_cons, List.filter_cons, h, if_false,
        Bool.false_eq_true, ih]

/-- On an input made of alphabet characters only, `Fuzzable.__init__`
produces exactly the closed-form profile. -/
theorem nonZero_eq_profileOf (s : List Char) (hs : ∀ c ∈ s, c ∈ printable) :
    nonZero s = some (profileOf s) := by
  unfold nonZero
  rw [letterCounts_eq s hs]
  refine congrArg some ?_
  show (List.map (fun c => (c, occCount s c, occList s c)) printable).filter
      (fun p => decide (0 < p.2.1)) = profileOf s
  rw [filter_map_comm]
  rfl

/-- Profiling fails (the `KeyError` of main.py line 35) exactly when some
character of the input lies outside the alphabet. -/
theorem nonZero_eq_none_iff (s : List Char) :
    nonZero s = none ↔ ¬ ∀ c ∈ s, c ∈ printable := by
  constructor
  · intro h hall
    rw [nonZero_eq_profileOf s hall] at h
    cases h
  · intro h
    unfold nonZero letterCounts
    rw [foldlM_countStep_none]
    · rfl
    · intro hall
      apply h
      intro c hc
      rw [← List.enum_map_snd s] at hc
      obtain ⟨p, hp, hpc⟩ := List.mem_map.mp hc
      rw [← hpc]
      exact (memKeys_initCounts p.2).mp (hall p hp)

theorem nodup_printable : printable.Nodup := by decide

theorem keys_profileOf (s : List Char) :
    (profileOf s).map Prod.fst =
      printable.filter (fun c => 0 < occCount s c) := by
  unfold profileOf
  rw [List.map_map]
  exact (List.map_congr_left (fun c _ => rfl)).trans (List.map_id _)

theorem nodup_keys_profileOf (s : List Char) :
    ((profileOf s).map Prod.fst).Nodup := by
  rw [keys_profileOf]
  exact nodup_printable.filter _

theorem lookupE_profileOf (s : List Char) (c : Char) :
    lookupE (profileOf s) c =
      if c ∈ printable ∧ 0 < occCount s c then
        some (occCount s c, occList s c) else none := by
  unfold profileOf
  rw [lookupE_map_self]
  by_cases h : c ∈ printable.filter (fun c => 0 < occCount s c)
  · rw [if_pos h]
    rw [List.mem_filter] at h
    rw [if_pos ⟨h.1, by simpa using h.2⟩]
  · rw [if_neg h]
    rw [List.mem_filter] at h
    rw [if_neg (by
      intro hc
      exact h ⟨hc.1, by simpa using hc.2⟩)]

theorem occCount_pos (s : List Char) (c : Char) :
    0 < occCount s c ↔ c ∈ s := by
  unfold occCount occPairs
  rw [List.length_pos, Ne, List.filter_eq_nil_iff]
  push_neg
  constructor
  · rintro ⟨p, hp, hpc⟩
    have hmem : p.2 ∈ s.enum.map Prod.snd := List.mem_map_of_mem _ hp
    rw [List.enum_map_snd] at hmem
    have hc : p.2 = c := by simpa using hpc
    rwa [← hc]
  · intro hc
    rw [← List.enum_map_snd s] at hc
    obtain ⟨p, hp, hpc⟩ := List.mem_map.mp hc
    exact ⟨p, hp, by simpa using hpc⟩

theorem length_occList (s : List Char) (c : Char) :
    (occList s c).length = occCount s c := by
  unfold occList occCount
  rw [List.length_map]

theorem sorted_occList (s : List Char) (c : Char) :
    List.Pairwise (· < ·) (occList s c) := by
  unfold occList occPairs
  have hsub : ((s.enum.filter (fun p => decide (p.2 = c))).map
      Prod.fst).Sublist (s.enum.map Prod.fst) :=
    (List.filter_sublist _).map _
  rw [List.enum_map_fst] at hsub
  exact List.Pairwise.sublist hsub (List.sorted_lt_range s.length)

/-! ### Lemmas about the comparison loop -/

theorem countOf_updateEntry_take (m : List (Char × Entry)) (k : Char)
    (n : Nat) (c : Char) :
    countOf (updateEntry m k (fun e => (e.1, e.2.take n))) c =
      countOf m c := by
  unfold countOf
  rw [lookupE_updateEntry]
  by_cases h : c = k
  · rw [if_pos h]
    cases lookupE m c <;> rfl
  · rw [if_neg h]

theorem compareLoop_nil (f2 : List (Char × Entry))
    (state : List (Char × Entry)) :
    compareLoop f2 [] state = (true, state) := rfl

theorem compareLoop_cons (f2 : List (Char × Entry)) (key : Char)
    (ks : List Char) (state : List (Char × Entry)) :
    compareLoop f2 (key :: ks) state =
      if countOf state key ≥ countOf f2 key then
        compareLoop f2 ks (updateEntry state key
          (fun e => (e.1, e.2.take (countOf f2 key))))
      else (false, state) := rfl

theorem countOf_compareLoop (f2 : List (Char × Entry)) (ks : List Char) :
    ∀ state c, countOf (compareLoop f2 ks state).2 c = countOf state c := by
  induction ks with
  | nil => intro state c; rfl
  | cons k ks ih =>
    intro state c
    rw [compareLoop_cons]
    by_cases h : countOf state k ≥ countOf f2 k
    · rw [if_pos h, ih, countOf_updateEntry_take]
    · rw [if_neg h]

theorem compareLoop_true_iff (f2 : List (Char × Entry)) (ks : List Char) :
    ∀ state, (compareLoop f2 ks state).1 = true ↔
      ∀ k ∈ ks, countOf f2 k ≤ countOf state k := by
  induction ks with
  | nil => intro state; simp [compareLoop_nil]
  | cons k ks ih =>
    intro state
    rw [compareLoop_cons]
    by_cases h : countOf state k ≥ countOf f2 k
    · rw [if_pos h, ih]
      constructor
      · intro hall k' hk'
        rcases List.mem_cons.mp hk' with hk | hmem
        · rw [hk]; exact h
        · have := hall k' hmem
          rwa [countOf_updateEntry_take] at this
      · intro hall k' hk'
        rw [countOf_updateEntry_take]
        exact hall k' (List.mem_cons_of_mem _ hk')
    · rw [if_neg h]
      constructor
      · intro hf; cases hf
      · intro hall
        exact absurd (hall k (List.mem_cons_self k ks)) h

theorem lookupE_compareLoop (f2 : List (Char × Entry)) (ks : List Char) :
    ∀ state, ks.Nodup →
      (∀ k ∈ ks, countOf f2 k ≤ countOf state k) →
      ∀ c, lookupE (compareLoop f2 ks state).2 c =
        if c ∈ ks then
          (lookupE state c).map (fun e => (e.1, e.2.take (countOf f2 c)))
        else lookupE state c := by
  induction ks with
  | nil => intro state _ _ c; simp [compareLoop_nil]
  | cons k ks ih =>
    intro state hnd hge c
    rw [compareLoop_cons, if_pos (hge k (List.mem_cons_self k ks))]
    rw [List.nodup_cons] at hnd
    have hrec := ih
      (updateEntry state k (fun e => (e.1, e.2.take (countOf f2 k))))
      hnd.2
      (by
        intro k' hk'
        rw [countOf_updateEntry_take]
        exact hge k' (List.mem_cons_of_mem _ hk'))
      c
    rw [hrec]
    by_cases hc : c ∈ ks
    · rw [if_pos hc, if_pos (List.mem_cons_of_mem _ hc)]
      rw [lookupE_updateEntry]
      have hck : ¬ c = k := fun h => hnd.1 (h ▸ hc)
      rw [if_neg hck]
    · rw [if_neg hc, lookupE_updateEntry]
      by_cases hck : c = k
      · rw [if_pos hck,
          if_pos (by rw [hck]; exact List.mem_cons_self k ks), hck]
      · rw [if_neg hck, if_neg (by
          intro hmem
          rcases List.mem_cons.mp hmem with h | h
          exacts [hck h, hc h])]

theorem keys_compareLoop (f2 : List (Char × Entry)) (ks : List Char) :
    ∀ state, (compareLoop f2 ks state).2.map Prod.fst =
      state.map Prod.fst := by
  induction ks with
  | nil => intro state; rfl
  | cons k ks ih =>
    intro state
    rw [compareLoop_cons]
    by_cases h : countOf state k ≥ countOf f2 k
    · rw [if_pos h, ih, keys_updateEntry]
    · rw [if_neg h]

theorem weakInv_updateEntry_take (m : List (Char × Entry)) (k : Char)
    (n : Nat) (h : WeakInv m) :
    WeakInv (updateEntry m k (fun e => (e.1, e.2.take n))) := by
  intro p hp
  unfold updateEntry at hp
  obtain ⟨q, hq, hpq⟩ := List.mem_map.mp hp
  by_cases hqk : q.1 = k
  · rw [if_pos hqk] at hpq
    obtain ⟨h1, h2⟩ := h q hq
    rw [← hpq]
    constructor
    · calc (q.2.2.take n).length ≤ q.2.2.length :=
            (List.take_sublist _ _).length_le
        _ ≤ q.2.1 := h1
    · exact List.Pairwise.sublist (List.take_sublist _ _) h2
  · rw [if_neg hqk] at hpq
    rw [← hpq]
    exact h q hq

theorem weakInv_compareLoop (f2 : List (Char × Entry)) (ks : List Char) :
    ∀ state, WeakInv state → WeakInv (compareLoop f2 ks state).2 := by
  induction ks with
  | nil => intro state h; exact h
  | cons k ks ih =>
    intro state h
    rw [compareLoop_cons]
    by_cases hge : countOf state k ≥ countOf f2 k
    · rw [if_pos hge]
      exact ih _ (weakInv_updateEntry_take _ _ _ h)
    · rw [if_neg hge]
      exact h

/-! ### Observations of the three components of `compare_dicts` -/

theorem compare_dicts_fst (f1 f2 : List (Char × Entry)) :
    (compare_dicts f1 f2).1 =
      (decide (((f1.map Prod.fst).filter
          (fun c => memKeys f2 c)).length = f2.length) &&
        (compareLoop f2 ((f1.map Prod.fst).filter
          (fun c => memKeys f2 c)) f1).1) := by
  simp only [compare_dicts]
  by_cases h : ((f1.map Prod.fst).filter
      (fun c => memKeys f2 c)).length = f2.length
  · rw [if_neg (not_not_intro h)]
    cases hr : (compareLoop f2 ((f1.map Prod.fst).filter
        (fun c => memKeys f2 c)) f1).1 <;> simp [h, hr]
  · rw [if_pos h]
    simp [h]

theorem compare_dicts_state (f1 f2 : List (Char × Entry)) :
    (compare_dicts f1 f2).2.1 =
      if ((f1.map Prod.fst).filter (fun c => memKeys f2 c)).length = f2.length
      then (compareLoop f2 ((f1.map Prod.fst).filter
        (fun c => memKeys f2 c)) f1).2
      else f1 := by
  simp only [compare_dicts]
  by_cases h : ((f1.map Prod.fst).filter
      (fun c => memKeys f2 c)).length = f2.length
  · rw [if_neg (not_not_intro h), if_pos h]
    cases hr : (compareLoop f2 ((f1.map Prod.fst).filter
        (fun c => memKeys f2 c)) f1).1 <;> simp [hr]
  · rw [if_pos h, if_neg h]

theorem compare_dicts_shared (f1 f2 : List (Char × Entry)) :
    (compare_dicts f1 f2).2.2 =
      if (compare_dicts f1 f2).1 = true
      then some ((compare_dicts f1 f2).2.1.filter
        (fun p => memKeys f2 p.1))
      else none := by
  simp only [compare_dicts]
  by_cases h : ((f1.map Prod.fst).filter
      (fun c => memKeys f2 c)).length = f2.length
  · rw [if_neg (not_not_intro h)]
    cases hr : (compareLoop f2 ((f1.map Prod.fst).filter
        (fun c => memKeys f2 c)) f1).1 <;> simp [hr]
  · rw [if_pos h]
    simp

/-! ### Counting lemmas for the key-containment check -/

theorem filter_and_length_le {α : Type} (l : List α) (p q : α → Bool) :
    (l.filter (fun a => q a && p a)).length ≤ (l.filter q).length := by
  induction l with
  | nil => exact Nat.le_refl 0
  | cons a rest ih =>
    by_cases hq : q a = true
    · by_cases hp : p a = true
      · simp only [List.filter_cons, hq, hp, Bool.and_self, if_true,
          List.length_cons]
        omega
      · have hp' : p a = false := Bool.not_eq_true _ |>.mp hp
        simp only [List.filter_cons, hq, hp', Bool.and_false,
          Bool.false_eq_true, if_false, if_true, List.length_cons]
        omega
    · have hq' : q a = false := Bool.not_eq_true _ |>.mp hq
      simp only [List.filter_cons, hq', Bool.false_and,
        Bool.false_eq_true, if_false]
      exact ih

theorem filter_and_length_eq_iff {α : Type} (l : List α) (p q : α → Bool) :
    ((l.filter (fun a => q a && p a)).length = (l.filter q).length) ↔
      ∀ a ∈ l, q a = true → p a = true := by
  induction l with
  | nil => simp
  | cons a rest ih =>
    by_cases hq : q a = true
    · by_cases hp : p a = true
      · simp only [List.filter_cons, hq, hp, Bool.and_self, if_true,
          List.length_cons, Nat.add_right_cancel_iff, ih]
        constructor
        · intro h a' ha' hq'
          rcases List.mem_cons.mp ha' with h1 | h2
          · rw [h1]; exact hp
          · exact h a' h2 hq'
        · intro h a' ha' hq'
          exact h a' (List.mem_cons_of_mem _ ha') hq'
      · have hp' : p a = false := Bool.not_eq_true _ |>.mp hp
        constructor
        · intro h
          exfalso
          have hle := filter_and_length_le rest p q
          simp only [List.filter_cons, hq, hp', Bool.and_false,
            Bool.false_eq_true, if_false, if_true] at h
          have h2 : (List.filter (fun a => q a && p a) rest).length =
              (List.filter q rest).length + 1 := by simpa using h
          omega
        · intro h
          exact absurd (h a (List.mem_cons_self a rest) hq)
            (by simp [hp'])
    · have hq' : q a = false := Bool.not_eq_true _ |>.mp hq
      simp only [List.filter_cons, hq', Bool.false_and,
        Bool.false_eq_true, if_false, ih]
      constructor
      · intro h a' ha' hqa'
        rcases List.mem_cons.mp ha' with h1 | h2
        · rw [h1, hq'] at hqa'; cases hqa'
        · exact h a' h2 hqa'
      · intro h a' ha' hqa'
        exact h a' (List.mem_cons_of_mem _ ha') hqa'

/-! ### The containment characterisation of `compare_dicts` -/

theorem memKeys_profileOf (s : List Char) (c : Char) :
    memKeys (profileOf s) c =
      (decide (c ∈ printable) && decide (0 < occCount s c)) := by
  unfold memKeys
  rw [lookupE_profileOf]
  by_cases hc : c ∈ printable <;> by_cases ho : 0 < occCount s c <;>
    simp [hc, ho]

theorem countOf_profileOf (s : List Char) (c : Char) (hc : c ∈ printable) :
    countOf (profileOf s) c = occCount s c := by
  unfold countOf
  rw [lookupE_profileOf]
  by_cases ho : 0 < occCount s c
  · rw [if_pos ⟨hc, ho⟩]
    rfl
  · rw [if_neg (fun h => ho h.2)]
    exact (Nat.eq_zero_of_not_pos ho).symm

theorem length_profileOf (s : List Char) :
    (profileOf s).length =
      (printable.filter (fun c => 0 < occCount s c)).length := by
  unfold profileOf
  rw [List.length_map]

theorem commonKeys_profiles (s1 s2 : List Char) :
    ((profileOf s1).map Prod.fst).filter
        (fun c => memKeys (profileOf s2) c) =
      printable.filter (fun c =>
        decide (0 < occCount s2 c) && decide (0 < occCount s1 c)) := by
  rw [keys_profileOf, List.filter_filter]
  apply List.filter_congr
  intro c hc
  rw [memKeys_profileOf]
  simp [hc]

/-- On the profiles of two alphabet-only strings, `compare_dicts` returns
`True` exactly when every character occurs in the candidate at least as
often as in the query. -/
theorem compare_true_iff (s1 s2 : List Char)
    (_h1 : ∀ c ∈ s1, c ∈ printable) (h2 : ∀ c ∈ s2, c ∈ printable) :
    ((compare_dicts (profileOf s1) (profileOf s2)).1 = true ↔
      ∀ c, occCount s2 c ≤ occCount s1 c) := by
  rw [compare_dicts_fst, Bool.and_eq_true, decide_eq_true_eq]
  rw [commonKeys_profiles s1 s2, compareLoop_true_iff, length_profileOf,
    filter_and_length_eq_iff]
  constructor
  · rintro ⟨hlen, hloop⟩ c
    by_cases h0 : 0 < occCount s2 c
    · have hcs2 : c ∈ s2 := (occCount_pos s2 c).mp h0
      have hcp : c ∈ printable := h2 c hcs2
      have h1c : 0 < occCount s1 c :=
        of_decide_eq_true (hlen c hcp (decide_eq_true h0))
      have hkmem : c ∈ printable.filter (fun c =>
          decide (0 < occCount s2 c) && decide (0 < occCount s1 c)) := by
        rw [List.mem_filter]
        exact ⟨hcp, by simp [h0, h1c]⟩
      have hle := hloop c hkmem
      rwa [countOf_profileOf s2 c hcp, countOf_profileOf s1 c hcp] at hle
    · have h0' : occCount s2 c = 0 := Nat.eq_zero_of_not_pos h0
      omega
  · intro hall
    constructor
    · intro a ha hq
      have h0 : 0 < occCount s2 a := of_decide_eq_true hq
      exact decide_eq_true (Nat.lt_of_lt_of_le h0 (hall a))
    · intro k hk
      rw [List.mem_filter] at hk
      rw [countOf_profileOf s2 k hk.1, countOf_profileOf s1 k hk.1]
      exact hall k

/-! ### Further helper lemmas -/

theorem nonZero_some_elim (s : List Char) (m : List (Char × Entry))
    (h : nonZero s = some m) :
    (∀ c ∈ s, c ∈ printable) ∧ m = profileOf s := by
  by_cases hp : ∀ c ∈ s, c ∈ printable
  · rw [nonZero_eq_profileOf s hp] at h
    exact ⟨hp, (Option.some_inj.mp h).symm⟩
  · rw [(nonZero_eq_none_iff s).mpr hp] at h
    cases h

/-- Every freshly created profile satisfies the full invariant. -/
theorem profileInv_profileOf (s : List Char) : ProfileInv (profileOf s) := by
  intro p hp
  unfold profileOf at hp
  obtain ⟨c, _, hpc⟩ := List.mem_map.mp hp
  rw [← hpc]
  exact ⟨length_occList s c, sorted_occList s c⟩

theorem scanLoop_cons_some (q m : List (Char × Entry)) (f : List Char)
    (fs : List (List Char)) (h : nonZero f = some m) :
    scanLoop q (f :: fs) =
      if (compare_dicts m q).1 = true
      then (f :: (scanLoop q fs).1, (scanLoop q fs).2)
      else scanLoop q fs := by
  simp only [scanLoop]
  rw [h]

theorem scanLoop_cons_none (q : List (Char × Entry)) (f : List Char)
    (fs : List (List Char)) (h : nonZero f = none) :
    scanLoop q (f :: fs) = ([], false) := by
  simp only [scanLoop]
  rw [h]

/-- On an all-alphabet candidate set the scan completes and reports
exactly the matching candidates, in enumeration order. -/
theorem scanLoop_eq_filter (q : List (Char × Entry))
    (files : List (List Char))
    (hf : ∀ f ∈ files, ∀ c ∈ f, c ∈ printable) :
    scanLoop q files =
      (files.filter (fun f => (compare_dicts (profileOf f) q).1), true) := by
  induction files with
  | nil => rfl
  | cons f fs ih =>
    have hq := nonZero_eq_profileOf f (hf f (List.mem_cons_self f fs))
    rw [scanLoop_cons_some q (profileOf f) f fs hq]
    rw [ih (fun g hg => hf g (List.mem_cons_of_mem f hg))]
    by_cases hr : (compare_dicts (profileOf f) q).1 = true
    · rw [if_pos hr]
      simp only [List.filter_cons, hr, if_true]
    · rw [if_neg hr]
      have hr' : (compare_dicts (profileOf f) q).1 = false :=
        Bool.not_eq_true _ |>.mp hr
      simp only [List.filter_cons, hr', Bool.false_eq_true, if_false]

theorem mainScan_eq_filter (files : List (List Char)) (query : List Char)
    (hq0 : query ≠ []) (hq : ∀ c ∈ query, c ∈ printable)
    (hf : ∀ f ∈ files, ∀ c ∈ f, c ∈ printable) :
    mainScan files query =
      (files.filter
        (fun f => (compare_dicts (profileOf f) (profileOf query)).1),
       true) := by
  unfold mainScan
  rw [if_neg (fun h => hq0 (List.length_eq_zero.mp h))]
  rw [nonZero_eq_profileOf query hq]
  exact scanLoop_eq_filter (profileOf query) files hf

/-! ### Summation lemmas for the count-sum property -/

theorem sum_indicator_zero (l : List Char) (a : Char) (ha : a ∉ l) :
    (l.map (fun c => if a = c then 1 else 0)).sum = 0 := by
  induction l with
  | nil => rfl
  | cons b rest ih =>
    have hab : ¬ a = b := by
      intro h
      rw [h] at ha
      exact ha (List.mem_cons_self b rest)
    have har : a ∉ rest := fun h => ha (List.mem_cons_of_mem _ h)
    rw [List.map_cons, List.sum_cons, if_neg hab, ih har]

theorem sum_indicator (l : List Char) (a : Char) (hnd : l.Nodup)
    (ha : a ∈ l) :
    (l.map (fun c => if a = c then 1 else 0)).sum = 1 := by
  induction l with
  | nil => cases ha
  | cons b rest ih =>
    rw [List.nodup_cons] at hnd
    rw [List.map_cons, List.sum_cons]
    rcases List.mem_cons.mp ha with h | h
    · have hz : a ∉ rest := by
        intro hm
        rw [h] at hm
        exact hnd.1 hm
      rw [if_pos h, sum_indicator_zero rest a hz]
    · have hne : ¬ a = b := by
        intro heq
        rw [heq] at h
        exact hnd.1 h
      rw [if_neg hne, ih hnd.2 h]

theorem sum_map_add (l : List Char) (f g : Char → Nat) :
    (l.map (fun c => f c + g c)).sum = (l.map f).sum + (l.map g).sum := by
  induction l with
  | nil => rfl
  | cons a rest ih =>
    rw [List.map_cons, List.map_cons, List.map_cons, List.sum_cons,
      List.sum_cons, List.sum_cons, ih]
    omega

theorem sum_map_zero (l : List Char) :
    (l.map (fun _ => (0 : Nat))).sum = 0 := by
  induction l with
  | nil => rfl
  | cons a rest ih => rw [List.map_cons, List.sum_cons, ih]

theorem sum_occ_counts (ps : List (Nat × Char)) (l : List Char)
    (hnd : l.Nodup) (hps : ∀ p ∈ ps, p.2 ∈ l) :
    (l.map (fun c => (ps.filter (fun p => p.2 = c)).length)).sum =
      ps.length := by
  induction ps with
  | nil => exact sum_map_zero l
  | cons a ps ih =>
    have hpoint : ∀ c ∈ l,
        ((a :: ps).filter (fun p => p.2 = c)).length =
          (if a.2 = c then 1 else 0) +
            (ps.filter (fun p => p.2 = c)).length := by
      intro c _
      by_cases h : a.2 = c
      · simp [List.filter_cons, h]
        omega
      · simp [List.filter_cons, h]
    rw [List.map_congr_left hpoint]
    rw [sum_map_add l (fun c => if a.2 = c then 1 else 0)
      (fun c => (ps.filter (fun p => p.2 = c)).length)]
    rw [sum_indicator l a.2 hnd (hps a (List.mem_cons_self a ps))]
    rw [ih (fun p hp => hps p (List.mem_cons_of_mem a hp))]
    rw [List.length_cons]
    omega

theorem sum_filter_pos (l : List Char) (g : Char → Nat) :
    ((l.filter (fun c => 0 < g c)).map g).sum = (l.map g).sum := by
  induction l with
  | nil => rfl
  | cons a rest ih =>
    by_cases h : 0 < g a
    · have hd : decide (0 < g a) = true := decide_eq_true h
      simp only [List.filter_cons, hd, if_true, List.map_cons,
        List.sum_cons, ih]
    · have hd : decide (0 < g a) = false := decide_eq_false h
      simp only [List.filter_cons, hd, Bool.false_eq_true, if_false,
        List.map_cons, List.sum_cons, ih]
      have h0 : g a = 0 := Nat.eq_zero_of_not_pos h
      omega

theorem sum_counts_profileOf (s : List Char)
    (hs : ∀ c ∈ s, c ∈ printable) :
    ((profileOf s).map (fun p => p.2.1)).sum = s.length := by
  have h1 : (profileOf s).map (fun p => p.2.1) =
      (printable.filter (fun c => 0 < occCount s c)).map
        (fun c => occCount s c) := by
    unfold profileOf
    rw [List.map_map]
    exact List.map_congr_left (fun c _ => rfl)
  rw [h1]
  calc ((printable.filter (fun c => 0 < occCount s c)).map
        (fun c => occCount s c)).sum
      = (printable.map (fun c => occCount s c)).sum :=
        sum_filter_pos printable (fun c => occCount s c)
    _ = s.enum.length := sum_occ_counts s.enum printable nodup_printable
        (by
          intro p hp
          have hmem : p.2 ∈ s.enum.map Prod.snd :=
            List.mem_map_of_mem _ hp
          rw [List.enum_map_snd] at hmem
          exact hs p.2 hmem)
    _ = s.length := List.enum_length

/-! ## The claims -/

/-- C4: comparing any candidate profile against the profile of the empty
query succeeds and yields an empty shared profile, and `main` with an
empty query bypasses the matcher and lists all directory entries
verbatim. -/
theorem C4_empty_query :
    nonZero [] = some [] ∧
      (∀ m1, compare_dicts m1 [] = (true, m1, some [])) ∧
      (∀ files, mainScan files [] = (files, true)) := by
  refine ⟨rfl, ?_, fun files => rfl⟩
  intro m1
  have hck : (m1.map Prod.fst).filter
      (fun c => memKeys ([] : List (Char × Entry)) c) = [] :=
    List.filter_eq_nil_iff.mpr (fun a _ => by simp [memKeys, lookupE])
  have hf : m1.filter
      (fun p => memKeys ([] : List (Char × Entry)) p.1) = [] :=
    List.filter_eq_nil_iff.mpr (fun a _ => by simp [memKeys, lookupE])
  simp only [compare_dicts]
  rw [hck, if_neg (by simp), compareLoop_nil]
  simp [hf]

/-- C6: profiling fails with a lookup error exactly on inputs containing
a character outside the fixed printable-ASCII alphabet; alphabet-only
strings never fail. -/
theorem C6_alphabet_failure (s : List Char) :
    (nonZero s = none ↔ ∃ c ∈ s, c ∉ printable) := by
  rw [nonZero_eq_none_iff]
  constructor
  · intro h
    push_neg at h
    exact h
  · intro h hall
    obtain ⟨c, hc, hnp⟩ := h
    exact hnp (hall c hc)

/-- C8: a string always matches itself: comparing a profile of a
non-empty string against a profile built from the same string succeeds. -/
theorem C8_reflexive (s : List Char) (m : List (Char × Entry))
    (_h0 : s ≠ []) (h : nonZero s = some m) :
    (compare_dicts m m).1 = true := by
  obtain ⟨hp, hm⟩ := nonZero_some_elim s m h
  subst hm
  exact (compare_true_iff s s hp hp).mpr (fun c => Nat.le_refl _)

/-- Witness for C8 at the string "ab". -/
theorem C8_reflexive_witness :
    (compare_dicts ((nonZero (['a','b'] : List Char)).getD [])
      ((nonZero (['a','b'] : List Char)).getD [])).1 = true :=
  C8_reflexive ['a','b'] _ (by decide) (by decide)

/-- C9: for every string, the counts over the retained characters of its
profile sum to the length of the string. -/
theorem C9_counts_sum (s : List Char) (m : List (Char × Entry))
    (h : nonZero s = some m) :
    (m.map (fun p => p.2.1)).sum = s.length := by
  obtain ⟨hp, hm⟩ := nonZero_some_elim s m h
  subst hm
  exact sum_counts_profileOf s hp

/-- Witness for C9 at the string "aab". -/
theorem C9_counts_sum_witness :
    ((((nonZero (['a','a','b'] : List Char)).getD []).map
      (fun p => p.2.1)).sum = 3) :=
  C9_counts_sum ['a','a','b'] _ (by decide)

/-- C10: the comparison never modifies its second (query) argument: the
query object's `non_zero` map and its `shared` field are identical before
and after the call, whether or not the result is a match. -/
theorem C10_query_unmodified (fuzz1 fuzz2 : FuzzObj) :
    (compareCall fuzz1 fuzz2).2.2.non_zero = fuzz2.non_zero ∧
      (compareCall fuzz1 fuzz2).2.2.shared = fuzz2.shared :=
  ⟨rfl, rfl⟩

/-- C3 counterexample: comparing the candidate "aa" against the query "a"
truncates the candidate's position list for the character to one element
while the recorded count stays 2 (the truncation of main.py line 59 writes
through the alias into the candidate's `non_zero`), so the invariant
`len(positions) == count` does not survive the restriction step. -/
theorem C3_counterexample :
    ¬ ProfileInv ((compare_dicts
      ((nonZero (['a','a'] : List Char)).getD [])
      ((nonZero (['a'] : List Char)).getD [])).2.1) := by
  decide

/-- C3 amended: every profile satisfies the invariant (positions strictly
increasing, as many as the count) when created; the restriction step of a
comparison keeps every position list strictly increasing but only
guarantees `len(positions) ≤ count` afterwards, since it truncates the
position lists without adjusting the counts. -/
theorem C3_invariant_amended :
    (∀ s m, nonZero s = some m → ProfileInv m) ∧
      (∀ f1 f2, WeakInv f1 → WeakInv (compare_dicts f1 f2).2.1) := by
  constructor
  · intro s m h
    obtain ⟨_, hm⟩ := nonZero_some_elim s m h
    rw [hm]
    exact profileInv_profileOf s
  · intro f1 f2 h
    rw [compare_dicts_state]
    split
    · exact weakInv_compareLoop _ _ _ h
    · exact h

/-- Witness for C3 amended at the profiles of "aa" and "a". -/
theorem C3_invariant_amended_witness :
    ProfileInv ((nonZero (['a','a'] : List Char)).getD []) ∧
      WeakInv ((compare_dicts
        ((nonZero (['a','a'] : List Char)).getD [])
        ((nonZero (['a'] : List Char)).getD [])).2.1) :=
  ⟨C3_invariant_amended.1 ['a','a'] _ (by decide),
   C3_invariant_amended.2 _ _ (by decide)⟩

/-- C5 counterexample: with a perfectly valid directory path, a query
containing a character outside the alphabet also aborts the run (the
uncaught KeyError of main.py line 106), so path-validation failure is not
the only error condition that aborts. -/
theorem C5_counterexample :
    (mainRun .okDir [['a']] [Char.ofNat 200]).ok = false := by
  decide

/-- C5 amended: a missing or non-directory path is fatal — the run aborts
(at the enumeration call of main.py line 98) with nothing scanned or
printed; but in addition, a character outside the alphabet in the query or
in a candidate also aborts the scan, so path validation is not the only
fatal condition.  On alphabet-only inputs the scan always completes. -/
theorem C5_path_fatal_amended :
    (∀ files query, mainRun .missing files query = ⟨[], false⟩ ∧
        mainRun .notDir files query = ⟨[], false⟩) ∧
      (∀ files query, (∀ c ∈ query, c ∈ printable) →
        (∀ f ∈ files, ∀ c ∈ f, c ∈ printable) →
        (mainRun .okDir files query).ok = true) := by
  constructor
  · intro files query
    exact ⟨rfl, rfl⟩
  · intro files query hq hf
    show (mainScan files query).2 = true
    by_cases h0 : query = []
    · rw [h0]
      rfl
    · rw [mainScan_eq_filter files query h0 hq hf]

/-- Witness for C5 amended at directory entry "a" and query "b". -/
theorem C5_path_fatal_amended_witness :
    mainRun .missing [['a']] ['b'] = ⟨[], false⟩ ∧
      (mainRun .okDir [['a']] ['b']).ok = true :=
  ⟨(C5_path_fatal_amended.1 [['a']] ['b']).1,
   C5_path_fatal_amended.2 [['a']] ['b'] (by decide) (by decide)⟩

/-- C7 counterexample: for the query "a" and the candidate set containing
"a" and the one-character string of code point 200 (outside the alphabet),
the two enumeration orders report different match sets: the out-of-range
candidate kills the scan at the point it is reached. -/
theorem C7_counterexample :
    (([['a'], [Char.ofNat 200]] : List (List Char)).Perm
        [[Char.ofNat 200], ['a']]) ∧
      (mainScan [['a'], [Char.ofNat 200]] ['a']).1 ≠
        (mainScan [[Char.ofNat 200], ['a']] ['a']).1 := by
  constructor
  · decide
  · decide

/-- C7 amended: provided the query and every candidate consist only of
alphabet characters, each candidate's verdict depends only on that
candidate and the query, matches are reported exactly in enumeration
order (the scan output is the filter of the enumeration), and permuting
the enumeration permutes, but does not change, the set of matches. -/
theorem C7_order_independence_amended (query : List Char)
    (files1 files2 : List (List Char))
    (hq0 : query ≠ []) (hq : ∀ c ∈ query, c ∈ printable)
    (hf : ∀ f ∈ files1, ∀ c ∈ f, c ∈ printable)
    (hperm : files1.Perm files2) :
    (mainScan files1 query).1 = files1.filter
        (fun f => (compare_dicts (profileOf f) (profileOf query)).1) ∧
      ((mainScan files1 query).1).Perm ((mainScan files2 query).1) := by
  have hf2 : ∀ f ∈ files2, ∀ c ∈ f, c ∈ printable :=
    fun f hmem => hf f (hperm.mem_iff.mpr hmem)
  rw [mainScan_eq_filter files1 query hq0 hq hf,
    mainScan_eq_filter files2 query hq0 hq hf2]
  exact ⟨rfl, hperm.filter _⟩

/-- Witness for C7 amended: query "a" over the entries "ab", "c" in both
orders. -/
theorem C7_order_independence_amended_witness :
    (mainScan [['a','b'], ['c']] ['a']).1 =
        ([['a','b'], ['c']] : List (List Char)).filter
          (fun f => (compare_dicts (profileOf f) (profileOf ['a'])).1) ∧
      ((mainScan [['a','b'], ['c']] ['a']).1).Perm
        ((mainScan [['c'], ['a','b']] ['a']).1) :=
  C7_order_independence_amended ['a'] [['a','b'], ['c']]
    [['c'], ['a','b']] (by decide) (by decide) (by decide) (by decide)

/-- C1: for every candidate profile and query profile, `compare_dicts`
returns True exactly when every character present in the query profile is
present in the candidate profile with a count at least the query's count;
a missing character or a failed count comparison yields False. -/
theorem C1_compare_containment (s1 s2 : List Char)
    (m1 m2 : List (Char × Entry))
    (h1 : nonZero s1 = some m1) (h2 : nonZero s2 = some m2) :
    ((compare_dicts m1 m2).1 = true ↔
      ∀ c e2, lookupE m2 c = some e2 →
        ∃ e1, lookupE m1 c = some e1 ∧ e2.1 ≤ e1.1) := by
  obtain ⟨hp1, hm1⟩ := nonZero_some_elim s1 m1 h1
  obtain ⟨hp2, hm2⟩ := nonZero_some_elim s2 m2 h2
  subst hm1
  subst hm2
  rw [compare_true_iff s1 s2 hp1 hp2]
  constructor
  · intro hall c e2 he2
    rw [lookupE_profileOf] at he2
    by_cases h : c ∈ printable ∧ 0 < occCount s2 c
    · rw [if_pos h] at he2
      have he2' : e2 = (occCount s2 c, occList s2 c) :=
        (Option.some_inj.mp he2).symm
      refine ⟨(occCount s1 c, occList s1 c), ?_, ?_⟩
      · rw [lookupE_profileOf,
          if_pos ⟨h.1, Nat.lt_of_lt_of_le h.2 (hall c)⟩]
      · rw [he2']
        exact hall c
    · rw [if_neg h] at he2
      cases he2
  · intro hall c
    by_cases h0 : 0 < occCount s2 c
    · have hcp : c ∈ printable := hp2 c ((occCount_pos s2 c).mp h0)
      obtain ⟨e1, he1, hle⟩ := hall c (occCount s2 c, occList s2 c)
        (by rw [lookupE_profileOf, if_pos ⟨hcp, h0⟩])
      rw [lookupE_profileOf] at he1
      by_cases h1c : c ∈ printable ∧ 0 < occCount s1 c
      · rw [if_pos h1c] at he1
        have he1' : e1 = (occCount s1 c, occList s1 c) :=
          (Option.some_inj.mp he1).symm
        rw [he1'] at hle
        exact hle
      · rw [if_neg h1c] at he1
        cases he1
    · have h0' : occCount s2 c = 0 := Nat.eq_zero_of_not_pos h0
      omega

/-- Witness for C1 at candidate "aabbb" and query "ab". -/
theorem C1_compare_containment_witness :
    ((compare_dicts ((nonZero (['a','a','b','b','b'] : List Char)).getD [])
        ((nonZero (['a','b'] : List Char)).getD [])).1 = true ↔
      ∀ c e2,
        lookupE ((nonZero (['a','b'] : List Char)).getD []) c = some e2 →
        ∃ e1, lookupE
          ((nonZero (['a','a','b','b','b'] : List Char)).getD []) c =
            some e1 ∧ e2.1 ≤ e1.1) :=
  C1_compare_containment ['a','a','b','b','b'] ['a','b'] _ _
    (by decide) (by decide)

theorem keys_state_compare (f1 f2 : List (Char × Entry)) :
    (compare_dicts f1 f2).2.1.map Prod.fst = f1.map Prod.fst := by
  rw [compare_dicts_state]
  split
  · exact keys_compareLoop _ _ _
  · rfl

/-- After a successful comparison of two string profiles, the candidate
state holds, for each query character, its original count together with
its positions truncated to the query's count; other entries are
untouched. -/
theorem lookupE_state_of_true (s1 s2 : List Char)
    (_hp1 : ∀ c ∈ s1, c ∈ printable) (hp2 : ∀ c ∈ s2, c ∈ printable)
    (hres : (compare_dicts (profileOf s1) (profileOf s2)).1 = true)
    (c : Char) :
    lookupE (compare_dicts (profileOf s1) (profileOf s2)).2.1 c =
      if 0 < occCount s2 c then
        (lookupE (profileOf s1) c).map
          (fun e => (e.1, e.2.take (occCount s2 c)))
      else lookupE (profileOf s1) c := by
  have hfst := hres
  rw [compare_dicts_fst, Bool.and_eq_true, decide_eq_true_eq] at hfst
  obtain ⟨hlen, hloop⟩ := hfst
  have hge := (compareLoop_true_iff (profileOf s2)
    (((profileOf s1).map Prod.fst).filter
      (fun c => memKeys (profileOf s2) c)) (profileOf s1)).mp hloop
  have hnodup : ((((profileOf s1).map Prod.fst).filter
      (fun c => memKeys (profileOf s2) c))).Nodup :=
    (nodup_keys_profileOf s1).filter _
  rw [compare_dicts_state, if_pos hlen]
  rw [lookupE_compareLoop (profileOf s2) _ (profileOf s1) hnodup hge c]
  by_cases hc : c ∈ ((profileOf s1).map Prod.fst).filter
      (fun c => memKeys (profileOf s2) c)
  · rw [if_pos hc]
    have hmk : memKeys (profileOf s2) c = true := (List.mem_filter.mp hc).2
    rw [memKeys_profileOf, Bool.and_eq_true, decide_eq_true_eq,
      decide_eq_true_eq] at hmk
    rw [if_pos hmk.2, countOf_profileOf s2 c hmk.1]
  · rw [if_neg hc]
    by_cases h2c : 0 < occCount s2 c
    · rw [if_pos h2c]
      have hcp : c ∈ printable := hp2 c ((occCount_pos s2 c).mp h2c)
      have h1c : ¬ 0 < occCount s1 c := by
        intro h1c
        apply hc
        rw [List.mem_filter]
        refine ⟨?_, ?_⟩
        · rw [keys_profileOf, List.mem_filter]
          exact ⟨hcp, decide_eq_true h1c⟩
        · rw [memKeys_profileOf]
          simp [hcp, h2c]
      have hnone : lookupE (profileOf s1) c = none := by
        rw [lookupE_profileOf, if_neg (fun hh => h1c hh.2)]
      rw [hnone]
      rfl
    · rw [if_neg h2c]

/-- C2: whenever the comparison succeeds, the shared profile it produces
maps each character present in the query to exactly the first
`query.count[c]` entries of the candidate's position list for that
character — the leftmost candidate occurrences, still in increasing
order — and holds no character absent from the query. -/
theorem C2_shared_leftmost (s1 s2 : List Char)
    (m1 m2 sh : List (Char × Entry))
    (h1 : nonZero s1 = some m1) (h2 : nonZero s2 = some m2)
    (hsh : (compare_dicts m1 m2).2.2 = some sh) :
    (∀ c e2, lookupE m2 c = some e2 →
        ∃ e1, lookupE m1 c = some e1 ∧
          lookupE sh c = some (e1.1, e1.2.take e2.1) ∧
          List.Pairwise (· < ·) (e1.2.take e2.1)) ∧
      (∀ c, lookupE m2 c = none → lookupE sh c = none) := by
  obtain ⟨hp1, hm1⟩ := nonZero_some_elim s1 m1 h1
  obtain ⟨hp2, hm2⟩ := nonZero_some_elim s2 m2 h2
  subst hm1
  subst hm2
  rw [compare_dicts_shared] at hsh
  by_cases hres : (compare_dicts (profileOf s1) (profileOf s2)).1 = true
  case neg =>
    rw [if_neg hres] at hsh
    cases hsh
  rw [if_pos hres] at hsh
  have hsh' : sh =
      (compare_dicts (profileOf s1) (profileOf s2)).2.1.filter
        (fun p => memKeys (profileOf s2) p.1) :=
    (Option.some_inj.mp hsh).symm
  have hknd : ((compare_dicts (profileOf s1)
      (profileOf s2)).2.1.map Prod.fst).Nodup := by
    rw [keys_state_compare]
    exact nodup_keys_profileOf s1
  have hcontain := (compare_true_iff s1 s2 hp1 hp2).mp hres
  constructor
  · intro c e2 he2
    rw [lookupE_profileOf] at he2
    by_cases h : c ∈ printable ∧ 0 < occCount s2 c
    case neg =>
      rw [if_neg h] at he2
      cases he2
    rw [if_pos h] at he2
    have he2' : e2 = (occCount s2 c, occList s2 c) :=
      (Option.some_inj.mp he2).symm
    have h1pos : 0 < occCount s1 c := Nat.lt_of_lt_of_le h.2 (hcontain c)
    refine ⟨(occCount s1 c, occList s1 c), ?_, ?_, ?_⟩
    · rw [lookupE_profileOf, if_pos ⟨h.1, h1pos⟩]
    · have hmk : memKeys (profileOf s2) c = true := by
        rw [memKeys_profileOf]
        simp [h.1, h.2]
      rw [hsh', lookupE_filter _ _ c hknd]
      rw [lookupE_state_of_true s1 s2 hp1 hp2 hres c, if_pos h.2]
      rw [lookupE_profileOf, if_pos ⟨h.1, h1pos⟩]
      rw [he2']
      simp [hmk]
    · rw [he2']
      exact List.Pairwise.sublist (List.take_sublist _ _)
        (sorted_occList s1 c)
  · intro c hnone
    have hmk : memKeys (profileOf s2) c = false := by
      unfold memKeys
      rw [hnone]
      rfl
    rw [hsh', lookupE_filter _ _ c hknd]
    cases hsc : lookupE (compare_dicts (profileOf s1)
        (profileOf s2)).2.1 c with
    | none => rfl
    | some e => simp [hmk]

/-- Witness for C2 at candidate "aabbb" and query "ab". -/
theorem C2_shared_leftmost_witness :
    (∀ c e2,
        lookupE ((nonZero (['a','b'] : List Char)).getD []) c = some e2 →
        ∃ e1, lookupE
            ((nonZero (['a','a','b','b','b'] : List Char)).getD []) c =
              some e1 ∧
          lookupE ((compare_dicts
              ((nonZero (['a','a','b','b','b'] : List Char)).getD [])
              ((nonZero (['a','b'] : List Char)).getD [])).2.2.getD []) c =
            some (e1.1, e1.2.take e2.1) ∧
          List.Pairwise (· < ·) (e1.2.take e2.1)) ∧
      (∀ c, lookupE ((nonZero (['a','b'] : List Char)).getD []) c = none →
        lookupE ((compare_dicts
            ((nonZero (['a','a','b','b','b'] : List Char)).getD [])
            ((nonZero (['a','b'] : List Char)).getD [])).2.2.getD []) c =
          none) :=
  C2_shared_leftmost ['a','a','b','b','b'] ['a','b'] _ _ _
    (by decide) (by decide) (by decide)

end FuzzyFinder
